import Mathlib

set_option maxHeartbeats 1000000

/-!
Shallow embedding of the `eyeutil` crate (src/lib.rs, src/slice.rs,
src/parse.rs, src/writable.rs).  Streams are modelled as cursors over a
byte list (matching `std::io::Cursor`, the stream type used by the
crate's own tests); `u64` offsets are `Nat` with explicit `% 2 ^ 64`
wrapping or checked operations exactly where the source uses wrapping
or checked arithmetic.  IEEE floats are modelled by their bit patterns:
`fN::from_le_bytes` / `to_le_bytes` are bit-level transmutes in Rust,
so the byte-level behaviour of their codecs is exactly that of the
corresponding unsigned integer.
-/

/-- Byte order (`Endian` in lib.rs). -/
inductive Endian
| Little
| Big
deriving DecidableEq

/-- Value of a little-endian byte list, as computed by `uN::from_le_bytes`. -/
def fromLEBytes : List Nat → Nat
| [] => 0
| b :: rest => b + 256 * fromLEBytes rest

/-- Little-endian byte list of width `w` of a value, as computed by
`uN::to_le_bytes`. -/
def toLEBytes : Nat → Nat → List Nat
| 0, _ => []
| w + 1, v => v % 256 :: toLEBytes w (v / 256)

/-- Value of a big-endian byte list (`uN::from_be_bytes`). -/
def fromBEBytes (bs : List Nat) : Nat := fromLEBytes bs.reverse

/-- Big-endian byte list of width `w` of a value (`uN::to_be_bytes`). -/
def toBEBytes (w v : Nat) : List Nat := (toLEBytes w v).reverse

/-- Two's-complement reading of an unsigned `bits`-wide pattern, the value
`iN::from_le_bytes` denotes. -/
def interpSigned (bits n : Nat) : Int :=
if n < 2 ^ (bits - 1) then (n : Int) else (n : Int) - (2 : Int) ^ bits

/-- Unsigned `bits`-wide pattern of a signed value, the bytes
`iN::to_le_bytes` emits. -/
def signedToBits (bits : Nat) (v : Int) : Nat := (v % (2 : Int) ^ bits).toNat

/-- Endian dispatch shared by every multi-byte `Parse` impl in parse.rs:
`match endian { Big => from_be_bytes, Little => from_le_bytes }`. -/
def uFromBytes (bs : List Nat) (o : Endian) : Nat :=
match o with
| .Big => fromBEBytes bs
| .Little => fromLEBytes bs

/-- Endian dispatch shared by every `Writable` impl in writable.rs:
`match d.endian { Big => to_be_bytes, Little => to_le_bytes }`. -/
def uToBytes (w v : Nat) (o : Endian) : List Nat :=
match o with
| .Big => toBEBytes w v
| .Little => toLEBytes w v

/-- Model of `<u8 as Parse>::parse` on its one consumed byte (endian-free, context `()`). -/
def u8_parse (bs : List Nat) : Nat := fromLEBytes bs

/-- Model of `<u8 as Writable>::write_to` byte output. -/
def u8_write_to (v : Nat) (o : Endian) : List Nat := uToBytes 1 v o

/-- Model of `<i8 as Parse>::parse` on its one consumed byte. -/
def i8_parse (bs : List Nat) : Int := interpSigned 8 (fromLEBytes bs)

/-- Model of `<i8 as Writable>::write_to` byte output. -/
def i8_write_to (v : Int) (o : Endian) : List Nat := uToBytes 1 (signedToBits 8 v) o

/-- Model of `<u16 as Parse>::parse` on its two consumed bytes. -/
def u16_parse (bs : List Nat) (o : Endian) : Nat := uFromBytes bs o

/-- Model of `<u16 as Writable>::write_to` byte output. -/
def u16_write_to (v : Nat) (o : Endian) : List Nat := uToBytes 2 v o

/-- Model of `<i16 as Parse>::parse` on its two consumed bytes. -/
def i16_parse (bs : List Nat) (o : Endian) : Int := interpSigned 16 (uFromBytes bs o)

/-- Model of `<i16 as Writable>::write_to` byte output. -/
def i16_write_to (v : Int) (o : Endian) : List Nat := uToBytes 2 (signedToBits 16 v) o

/-- Model of `<u32 as Parse>::parse` on its four consumed bytes. -/
def u32_parse (bs : List Nat) (o : Endian) : Nat := uFromBytes bs o

/-- Model of `<u32 as Writable>::write_to` byte output. -/
def u32_write_to (v : Nat) (o : Endian) : List Nat := uToBytes 4 v o

/-- Model of `<i32 as Parse>::parse` on its four consumed bytes. -/
def i32_parse (bs : List Nat) (o : Endian) : Int := interpSigned 32 (uFromBytes bs o)

/-- Model of `<i32 as Writable>::write_to` byte output. -/
def i32_write_to (v : Int) (o : Endian) : List Nat := uToBytes 4 (signedToBits 32 v) o

/-- Model of `<u64 as Parse>::parse` on its eight consumed bytes. -/
def u64_parse (bs : List Nat) (o : Endian) : Nat := uFromBytes bs o

/-- Model of `<u64 as Writable>::write_to` byte output. -/
def u64_write_to (v : Nat) (o : Endian) : List Nat := uToBytes 8 v o

/-- Model of `<i64 as Parse>::parse` on its eight consumed bytes. -/
def i64_parse (bs : List Nat) (o : Endian) : Int := interpSigned 64 (uFromBytes bs o)

/-- Model of `<i64 as Writable>::write_to` byte output. -/
def i64_write_to (v : Int) (o : Endian) : List Nat := uToBytes 8 (signedToBits 64 v) o

/-- Model of `<f32 as Parse>::parse`, modelled by the bit pattern `from_xe_bytes`
transmutes from the four consumed bytes. -/
def f32_parse (bs : List Nat) (o : Endian) : Nat := uFromBytes bs o

/-- Model of `<f32 as Writable>::write_to` byte output of a bit pattern. -/
def f32_write_to (v : Nat) (o : Endian) : List Nat := uToBytes 4 v o

/-- Model of `<f64 as Parse>::parse`, modelled by the bit pattern `from_xe_bytes`
transmutes from the eight consumed bytes. -/
def f64_parse (bs : List Nat) (o : Endian) : Nat := uFromBytes bs o

/-- Model of `<f64 as Writable>::write_to` byte output of a bit pattern. -/
def f64_write_to (v : Nat) (o : Endian) : List Nat := uToBytes 8 v o

/-- Stream i/o error kinds the modelled code produces. -/
inductive IOErr
| unexpectedEof
| invalidInput
deriving DecidableEq

/-- Parse error taxonomy (`ParseError` in parse.rs), restricted to the
constructors the modelled combinators produce. -/
inductive ParseError
| io (e : IOErr)
| invalidByte
deriving DecidableEq

/-- A seekable byte stream, modelled as `std::io::Cursor<Vec<u8>>` (the
stream type the crate's tests drive every operation with): a byte list
plus an absolute position. -/
structure Cursor where
  data : List Nat
  pos : Nat
deriving DecidableEq

/-- Model of `stream_position` from lib.rs (`seek(SeekFrom::Current(0))`); on a
cursor this query cannot fail and does not move the stream. -/
def stream_position (c : Cursor) : Nat := c.pos

/-- Model of `Seek::seek(SeekFrom::Start(p))` on a cursor: always succeeds,
returns the new absolute position. -/
def Cursor.seekStart (c : Cursor) (p : Nat) : Nat × Cursor :=
  (p, { c with pos := p })

/-- Model of `Read::read_exact` on a cursor: succeeds iff `n` bytes are available
(an empty request always succeeds), advancing the position by `n`. -/
def Cursor.readExact (c : Cursor) (n : Nat) : Except IOErr Cursor :=
  if n = 0 then .ok c
  else if c.pos + n ≤ c.data.length then .ok { c with pos := c.pos + n }
  else .error .unexpectedEof

/-- Model of `stream_len` from lib.rs: seek to the end, seek back unless already
there, report the end offset. -/
def stream_len (c : Cursor) : Nat × Cursor :=
  let old_pos := stream_position c
  let atEnd : Cursor := { c with pos := c.data.length }
  let len := atEnd.pos
  if old_pos ≠ len then (len, { atEnd with pos := old_pos }) else (len, atEnd)

/-- Loop body of `skip` from lib.rs, one loop iteration per fuel unit: read
`min(CHUNK, amount)` bytes, subtract `CHUNK` (saturating) from `amount`,
until `amount = 0`.  `none` means the fuel ran out before the loop
finished; the fuel `amount + 1` given to `skip` below suffices whenever
`CHUNK ≥ 1`, since then `amount` strictly decreases each iteration. -/
def skipAux (chunk : Nat) : Nat → Nat → Cursor → Option (Except IOErr Cursor)
| 0, _, _ => none
| fuel + 1, amount, c =>
  if amount = 0 then some (.ok c)
  else
    match c.readExact (min chunk amount) with
    | .ok c1 => skipAux chunk fuel (amount - chunk) c1
    | .error e => some (.error e)

/-- Model of `skip` from lib.rs (lines 85-101). -/
def skip (chunk amount : Nat) (c : Cursor) : Option (Except IOErr Cursor) :=
  skipAux chunk (amount + 1) amount c

/-- Model of `single` from parse.rs: read one byte (`read_exact` on a 1-buffer);
state-passing so that the stream position on failure stays observable. -/
def single (c : Cursor) : Except ParseError Nat × Cursor :=
  if c.pos < c.data.length then
    (.ok (c.data.getD c.pos 0), { c with pos := c.pos + 1 })
  else (.error (.io .unexpectedEof), c)

/-- Model of `tag` from parse.rs (lines 161-173): for each expected byte, consume
one byte with `single` and return `InvalidByte` if it differs. -/
def tag (expected : List Nat) (c : Cursor) : Except ParseError Unit × Cursor :=
  match expected with
  | [] => (.ok (), c)
  | x :: rest =>
    match single c with
    | (.ok v, c1) => if x ≠ v then (.error .invalidByte, c1) else tag rest c1
    | (.error e, c1) => (.error e, c1)

/-- Model of `Parse::parse_peek` from parse.rs (lines 221-231), generic over the
implementing type's `parse` (here: any state-passing step on a cursor,
on which the position query and the restoring seek always succeed). -/
def parse_peek {R : Type} (p : Cursor → Except ParseError R × Cursor) (c : Cursor) :
    Except ParseError R × Cursor :=
  let initial_position := stream_position c
  let r := p c
  let s := Cursor.seekStart r.2 initial_position
  (r.1, s.2)

/-- Loop body of `many` from parse.rs, one loop iteration per fuel unit: stop with
the accumulated elements once the position reaches the stream length
captured before the loop, otherwise run the step and continue.  `none`
means the fuel ran out; the fuel `len + 1 - pos` given to `many` below
suffices whenever each successful step consumes at least one byte. -/
def manyAux {R : Type} (step : Cursor → Except ParseError R × Cursor) (len : Nat) :
    Nat → Cursor → List R → Option (Except ParseError (List R) × Cursor)
| 0, _, _ => none
| fuel + 1, c, acc =>
  if len ≤ stream_position c then some (.ok acc.reverse, c)
  else
    match step c with
    | (.ok v, c1) => manyAux step len fuel c1 (v :: acc)
    | (.error e, c1) => some (.error e, c1)

/-- Model of `many` from parse.rs (lines 108-132): capture `stream_len` once,
then repeat the step until the position reaches it. -/
def many {R : Type} (step : Cursor → Except ParseError R × Cursor) (c : Cursor) :
    Option (Except ParseError (List R) × Cursor) :=
  let p := stream_len c
  manyAux step p.1 (p.1 + 1 - p.2.pos) p.2 []

/-- Wrapping `u64` subtraction (release-mode `a - b`); every use site
below is reasoned about under the soundness invariant `b ≤ a` the
source's TODO comments assume. -/
def wsub64 (a b : Nat) : Nat := if b ≤ a then a - b else a + 2 ^ 64 - b

/-- Model of `u64::checked_add`. -/
def checkedAdd64 (a b : Nat) : Option Nat :=
  if a + b < 2 ^ 64 then some (a + b) else none

/-- Model of `u64::checked_sub`. -/
def checkedSub64 (a b : Nat) : Option Nat :=
  if b ≤ a then some (a - b) else none

/-- A bound of a `RangeBounds<u64>` argument to `InputSlice::new_unchecked`. -/
inductive Bound64
| unbounded
| included (x : Nat)
| excluded (x : Nat)

/-- The stored inclusive start `new_unchecked` computes from the range's
start bound (`Excluded(x)` does the wrapping `x + 1`). -/
def boundStart : Bound64 → Nat
| .unbounded => 0
| .included x => x
| .excluded x => (x + 1) % 2 ^ 64

/-- The stored inclusive end `new_unchecked` computes from the range's
end bound (`Unbounded` stores `u64::MAX`; `Excluded(x)` does the
wrapping `x - 1`). -/
def boundLast : Bound64 → Nat
| .unbounded => 2 ^ 64 - 1
| .included x => x
| .excluded x => (x + (2 ^ 64 - 1)) % 2 ^ 64

/-- Model of `InputSlice` from slice.rs: an owned underlying stream (a cursor)
plus the stored `RangeInclusive<u64>` window `[start, last]`. -/
structure InputSlice where
  data : List Nat
  pos : Nat
  start : Nat
  last : Nat
deriving DecidableEq

/-- Model of `InputSlice::new_unchecked` (slice.rs lines 37-53). -/
def InputSlice.new_unchecked (c : Cursor) (bs be : Bound64) : InputSlice :=
  { data := c.data, pos := c.pos, start := boundStart bs, last := boundLast be }

/-- Model of `InputSlice::at` (slice.rs lines 60-67): window at the current
position, with `start.saturating_add(amount)` as the stored range end. -/
def InputSlice.atLen (c : Cursor) (amount : Nat) : InputSlice :=
  InputSlice.new_unchecked c (.included c.pos)
    (.included (min (c.pos + amount) (2 ^ 64 - 1)))

/-- Model of `InputSlice::end` (slice.rs lines 83-85): `*self.range.end() + 1`,
an unchecked `u64` addition, modelled with its wrapping value. -/
def InputSlice.endPos (s : InputSlice) : Nat := (s.last + 1) % 2 ^ 64

/-- Model of `InputSlice::stream_position`: absolute position minus `start`
(unchecked subtraction in the source). -/
def InputSlice.stream_position (s : InputSlice) : Nat := wsub64 s.pos s.start

/-- Model of `InputSlice::get_distance_from_end` (slice.rs lines 156-159):
`self.end() - position`. -/
def InputSlice.get_distance_from_end (s : InputSlice) (position : Nat) : Nat :=
  wsub64 s.endPos position

/-- Model of `InputSlice::position_at_end`: absolute position equals `end()`. -/
def InputSlice.position_at_end (s : InputSlice) : Bool := s.pos == s.endPos

/-- Model of `InputSlice::read` (slice.rs lines 180-194): compute the relative
position, return 0 bytes at the end, otherwise truncate the buffer to
`min(buf.len(), get_distance_from_end(current_position))` and delegate
to the cursor's read (which returns `min` of that and the bytes
physically remaining).  On a cursor none of the involved calls fail. -/
def InputSlice.read (s : InputSlice) (buflen : Nat) : Nat × InputSlice :=
  let current_position := s.stream_position
  if s.position_at_end then (0, s)
  else
    let mx := min buflen (s.get_distance_from_end current_position)
    let amount := min mx (s.data.length - min s.pos s.data.length)
    (amount, { s with pos := s.pos + amount })

/-- The three `std::io::SeekFrom` modes. -/
inductive SeekFrom
| fromStart (n : Nat)
| current (off : Int)
| fromEnd (off : Int)

/-- The absolute seek target `InputSlice::seek` computes before
clamping: the `(base_pos, offset)` pair of the match, the checked
signed-offset application, then the checked addition of `start` —
`none` exactly when the source returns the invalid-input error. -/
def InputSlice.seekTarget (s : InputSlice) (p : SeekFrom) : Option Nat :=
  let base : Nat :=
    match p with
    | .fromStart n => n
    | .current _ => s.stream_position
    | .fromEnd _ => s.endPos
  let offset : Int :=
    match p with
    | .fromStart _ => 0
    | .current off => off
    | .fromEnd off => off
  match (if 0 ≤ offset then checkedAdd64 base offset.toNat
         else checkedSub64 base (Int.toNat (-offset))) with
  | none => none
  | some np1 => checkedAdd64 np1 s.start

/-- Model of `InputSlice::seek` (slice.rs lines 204-249): compute the target,
clamp to `end()` when the stored range does not contain it, reposition
the underlying cursor with an absolute seek (which always succeeds),
and return the reported position minus `start`. -/
def InputSlice.seek (s : InputSlice) (p : SeekFrom) : Except IOErr (Nat × InputSlice) :=
  match s.seekTarget p with
  | none => .error .invalidInput
  | some np0 =>
    let np := if s.start ≤ np0 ∧ np0 ≤ s.last then np0 else s.endPos
    .ok (wsub64 np s.start, { s with pos := np })

lemma fromLEBytes_lt (bs : List Nat) (h : ∀ b ∈ bs, b < 256) :
    fromLEBytes bs < 2 ^ (8 * bs.length) := by
  induction bs with
  | nil => simp [fromLEBytes]
  | cons b rest ih =>
    have hb : b < 256 := h b (List.mem_cons_self b rest)
    have hr := ih (fun x hx => h x (List.mem_cons_of_mem _ hx))
    have hK : 2 ^ (8 * (rest.length + 1)) = 256 * 2 ^ (8 * rest.length) := by
      rw [Nat.mul_add, pow_add]; ring
    simp only [fromLEBytes, List.length_cons, hK]
    omega

lemma uFromBytes_lt (bs : List Nat) (o : Endian) (h : ∀ b ∈ bs, b < 256) :
    uFromBytes bs o < 2 ^ (8 * bs.length) := by
  cases o with
  | Little => exact fromLEBytes_lt bs h
  | Big =>
    have h' : ∀ b ∈ bs.reverse, b < 256 := fun b hb => h b (List.mem_reverse.mp hb)
    have := fromLEBytes_lt bs.reverse h'
    simpa [uFromBytes, fromBEBytes] using this

lemma toLEBytes_fromLEBytes (bs : List Nat) (h : ∀ b ∈ bs, b < 256) :
    toLEBytes bs.length (fromLEBytes bs) = bs := by
  induction bs with
  | nil => rfl
  | cons b rest ih =>
    have hb : b < 256 := h b (List.mem_cons_self b rest)
    simp only [List.length_cons, fromLEBytes, toLEBytes, List.cons.injEq]
    refine ⟨by omega, ?_⟩
    have hdiv : (b + 256 * fromLEBytes rest) / 256 = fromLEBytes rest := by omega
    rw [hdiv]
    exact ih (fun x hx => h x (List.mem_cons_of_mem _ hx))

lemma uToBytes_uFromBytes (bs : List Nat) (o : Endian) (h : ∀ b ∈ bs, b < 256) :
    uToBytes bs.length (uFromBytes bs o) o = bs := by
  cases o with
  | Little => exact toLEBytes_fromLEBytes bs h
  | Big =>
    have h' : ∀ b ∈ bs.reverse, b < 256 := fun b hb => h b (List.mem_reverse.mp hb)
    simp only [uToBytes, uFromBytes, toBEBytes, fromBEBytes]
    rw [← List.length_reverse, toLEBytes_fromLEBytes bs.reverse h', List.reverse_reverse]

lemma signedToBits_interpSigned (bits n : Nat) (h : n < 2 ^ bits) :
    signedToBits bits (interpSigned bits n) = n := by
  unfold signedToBits interpSigned
  have hb : ((n : Int)) < (2 : Int) ^ bits := by exact_mod_cast h
  split
  · rw [Int.emod_eq_of_lt (by positivity) hb]
    simp
  · rw [Int.sub_emod, Int.emod_self, sub_zero, Int.emod_emod_of_dvd _ dvd_rfl,
      Int.emod_eq_of_lt (by positivity) hb]
    simp

lemma signed_uToBytes_uFromBytes (bs : List Nat) (o : Endian) (h : ∀ b ∈ bs, b < 256) :
    uToBytes bs.length
      (signedToBits (8 * bs.length) (interpSigned (8 * bs.length) (uFromBytes bs o))) o = bs := by
  rw [signedToBits_interpSigned _ _ (uFromBytes_lt bs o h)]
  exact uToBytes_uFromBytes bs o h

lemma uFromBytes_singleton (bs : List Nat) (o : Endian) (h : bs.length = 1) :
    uFromBytes bs o = fromLEBytes bs := by
  match bs, h with
  | [b], _ => cases o <;> rfl

/-- Claim C2: for every byte order and every supported scalar type
(u8/i8, u16/i16, u32/i32, u64/i64, f32, f64 — the floats modelled by
their bit patterns, which is what their byte codecs transmute), writing
the value parsed from a byte sequence of exactly the type's width emits
back that byte sequence. -/
theorem scalar_write_parse_roundtrip
    (o : Endian) (b1 b2 b4 b8 : List Nat)
    (h1 : b1.length = 1) (h1b : ∀ b ∈ b1, b < 256)
    (h2 : b2.length = 2) (h2b : ∀ b ∈ b2, b < 256)
    (h4 : b4.length = 4) (h4b : ∀ b ∈ b4, b < 256)
    (h8 : b8.length = 8) (h8b : ∀ b ∈ b8, b < 256) :
    u8_write_to (u8_parse b1) o = b1 ∧
    i8_write_to (i8_parse b1) o = b1 ∧
    u16_write_to (u16_parse b2 o) o = b2 ∧
    i16_write_to (i16_parse b2 o) o = b2 ∧
    u32_write_to (u32_parse b4 o) o = b4 ∧
    i32_write_to (i32_parse b4 o) o = b4 ∧
    f32_write_to (f32_parse b4 o) o = b4 ∧
    u64_write_to (u64_parse b8 o) o = b8 ∧
    i64_write_to (i64_parse b8 o) o = b8 ∧
    f64_write_to (f64_parse b8 o) o = b8 := by
  refine ⟨?_, ?_, ?_, ?_, ?_, ?_, ?_, ?_, ?_, ?_⟩
  · unfold u8_write_to u8_parse
    rw [← uFromBytes_singleton b1 o h1, ← h1]
    exact uToBytes_uFromBytes b1 o h1b
  · unfold i8_write_to i8_parse
    rw [← uFromBytes_singleton b1 o h1, ← h1,
      show (8 : Nat) = 8 * b1.length by rw [h1]]
    exact signed_uToBytes_uFromBytes b1 o h1b
  · unfold u16_write_to u16_parse
    rw [← h2]
    exact uToBytes_uFromBytes b2 o h2b
  · unfold i16_write_to i16_parse
    rw [← h2, show (16 : Nat) = 8 * b2.length by rw [h2]]
    exact signed_uToBytes_uFromBytes b2 o h2b
  · unfold u32_write_to u32_parse
    rw [← h4]
    exact uToBytes_uFromBytes b4 o h4b
  · unfold i32_write_to i32_parse
    rw [← h4, show (32 : Nat) = 8 * b4.length by rw [h4]]
    exact signed_uToBytes_uFromBytes b4 o h4b
  · unfold f32_write_to f32_parse
    rw [← h4]
    exact uToBytes_uFromBytes b4 o h4b
  · unfold u64_write_to u64_parse
    rw [← h8]
    exact uToBytes_uFromBytes b8 o h8b
  · unfold i64_write_to i64_parse
    rw [← h8, show (64 : Nat) = 8 * b8.length by rw [h8]]
    exact signed_uToBytes_uFromBytes b8 o h8b
  · unfold f64_write_to f64_parse
    rw [← h8]
    exact uToBytes_uFromBytes b8 o h8b

/-- Claim C2, witness: the round-trip theorem applied at a concrete
byte order and concrete well-formed byte sequences of each width. -/
theorem scalar_write_parse_roundtrip_witness :
    u8_write_to (u8_parse [171]) .Big = [171] ∧
    i8_write_to (i8_parse [171]) .Big = [171] ∧
    u16_write_to (u16_parse [1, 255] .Big) .Big = [1, 255] ∧
    i16_write_to (i16_parse [1, 255] .Big) .Big = [1, 255] ∧
    u32_write_to (u32_parse [18, 52, 86, 120] .Big) .Big = [18, 52, 86, 120] ∧
    i32_write_to (i32_parse [18, 52, 86, 120] .Big) .Big = [18, 52, 86, 120] ∧
    f32_write_to (f32_parse [18, 52, 86, 120] .Big) .Big = [18, 52, 86, 120] ∧
    u64_write_to (u64_parse [1, 2, 3, 4, 5, 6, 7, 255] .Big) .Big = [1, 2, 3, 4, 5, 6, 7, 255] ∧
    i64_write_to (i64_parse [1, 2, 3, 4, 5, 6, 7, 255] .Big) .Big = [1, 2, 3, 4, 5, 6, 7, 255] ∧
    f64_write_to (f64_parse [1, 2, 3, 4, 5, 6, 7, 255] .Big) .Big = [1, 2, 3, 4, 5, 6, 7, 255] :=
  scalar_write_parse_roundtrip .Big [171] [1, 255] [18, 52, 86, 120] [1, 2, 3, 4, 5, 6, 7, 255]
    (by decide) (by decide) (by decide) (by decide) (by decide) (by decide) (by decide) (by decide)

lemma readExact_ok (c : Cursor) (n : Nat) (hn : n ≠ 0) (h : c.pos + n ≤ c.data.length) :
    c.readExact n = .ok { c with pos := c.pos + n } := by
  unfold Cursor.readExact
  rw [if_neg hn, if_pos h]

lemma readExact_err (c : Cursor) (n : Nat) (hn : n ≠ 0) (h : ¬ c.pos + n ≤ c.data.length) :
    c.readExact n = .error .unexpectedEof := by
  unfold Cursor.readExact
  rw [if_neg hn, if_neg h]

lemma single_ok (c : Cursor) (h : c.pos < c.data.length) :
    single c = (.ok (c.data.getD c.pos 0), { c with pos := c.pos + 1 }) := by
  unfold single
  rw [if_pos h]

lemma stream_len_eq (c : Cursor) : stream_len c = (c.data.length, c) := by
  cases c with
  | mk data pos =>
    unfold stream_len stream_position
    dsimp only
    split
    · rfl
    · rename_i h
      have hp : pos = data.length := by simpa using h
      rw [hp]

/-- Claim C1 (code bug): `InputSlice::read` is supposed to cap the
request at the distance from the current *absolute* position to
`end()`, but it passes the *relative* position to
`get_distance_from_end`, so with `start() = 3` and window `[3, 8)` over
a 20-byte stream a 10-byte read requests 8 bytes from the underlying
stream and leaves the absolute position at 11, three bytes past
`end() = 8`. -/
theorem read_overruns_window :
    InputSlice.read ⟨List.range 20, 3, 3, 7⟩ 10 = (8, ⟨List.range 20, 11, 3, 7⟩) ∧
    InputSlice.endPos ⟨List.range 20, 3, 3, 7⟩ = 8 ∧ (8 : Nat) < 11 :=
  ⟨rfl, rfl, by decide⟩

/-- Claim C3 (code bug): for `SeekFrom::End(off)` the base `end()` is
already an absolute offset, yet `seek` adds `start()` to it again, so
on the view `[3, 17)` a `SeekFrom::End(-4)` lands at relative position
13 (absolute 16) instead of the intended `(end - start) + off = 10`
(absolute 13). -/
theorem seek_from_end_adds_start_twice :
    InputSlice.seek ⟨List.range 20, 3, 3, 16⟩ (.fromEnd (-4)) =
      .ok (13, ⟨List.range 20, 16, 3, 16⟩) ∧
    InputSlice.endPos ⟨List.range 20, 3, 3, 16⟩ - 3 - 4 = 10 ∧ (13 : Nat) ≠ 10 :=
  ⟨rfl, rfl, by decide⟩

/-- Claim C5 (code bug): `InputSlice::at(stream, amount)` builds the
inclusive range `start..=(start + amount)`, so the resulting window
spans `amount + 1` offsets: with position 0 and `amount = 4` the view
has `start() = 0` but `end() - start() = 5`, not 4. -/
theorem atLen_window_length_off_by_one :
    InputSlice.atLen ⟨List.range 10, 0⟩ 4 = ⟨List.range 10, 0, 0, 4⟩ ∧
    InputSlice.endPos (InputSlice.atLen ⟨List.range 10, 0⟩ 4) -
      (InputSlice.atLen ⟨List.range 10, 0⟩ 4).start = 5 ∧ (5 : Nat) ≠ 4 :=
  ⟨rfl, rfl, by decide⟩

/-- Claim C9: `InputSlice::end()` is the unchecked `last() + 1`, which
is the valid exclusive end exactly when `last() < u64::MAX` and wraps
to 0 at `last() = u64::MAX`; `new_unchecked` stores `u64::MAX` as the
inclusive end for an unbounded end bound, and its wrapping `x - 1` maps
the excluded end bound 0 (the empty range `0..0`) to `u64::MAX`. -/
theorem end_overflow_boundaries :
    (∀ s : InputSlice, s.last < 2 ^ 64 - 1 → s.endPos = s.last + 1) ∧
    (∀ s : InputSlice, s.last = 2 ^ 64 - 1 → s.endPos = 0) ∧
    (∀ (c : Cursor) (b : Bound64), (InputSlice.new_unchecked c b .unbounded).last = 2 ^ 64 - 1) ∧
    (∀ (c : Cursor) (b : Bound64),
      (InputSlice.new_unchecked c b (.excluded 0)).last = 2 ^ 64 - 1) := by
  have h64 : (0 : Nat) < 2 ^ 64 := by positivity
  refine ⟨?_, ?_, ?_, ?_⟩
  · intro s h
    unfold InputSlice.endPos
    exact Nat.mod_eq_of_lt (by omega)
  · intro s h
    unfold InputSlice.endPos
    rw [h, Nat.sub_add_cancel (by omega), Nat.mod_self]
  · intro c b
    rfl
  · intro c b
    show (0 + (2 ^ 64 - 1)) % 2 ^ 64 = 2 ^ 64 - 1
    rw [Nat.zero_add]
    exact Nat.mod_eq_of_lt (by omega)

/-- Claim C9, witness: the boundary facts applied at `last = 5` and at
a concrete slice with `last = u64::MAX`. -/
theorem end_overflow_boundaries_witness :
    InputSlice.endPos ⟨[], 0, 0, 5⟩ = 6 ∧ InputSlice.endPos ⟨[], 0, 0, 2 ^ 64 - 1⟩ = 0 :=
  ⟨end_overflow_boundaries.1 ⟨[], 0, 0, 5⟩ (by norm_num),
   end_overflow_boundaries.2.1 ⟨[], 0, 0, 2 ^ 64 - 1⟩ rfl⟩

/-- Claim C4: a seek whose computed absolute target lies past the
window (the checked arithmetic having succeeded) returns `Ok` with the
position clamped to `end()` — the returned relative position is
`end() - start()` — and a read issued while positioned at `end()`
returns 0 bytes rather than an error. -/
theorem seek_past_end_clamps (s : InputSlice) (p : SeekFrom) (t : Nat) (buflen : Nat)
    (hsl : s.start ≤ s.last) (hov : s.last + 1 < 2 ^ 64)
    (ht : s.seekTarget p = some t) (hout : s.last < t) :
    s.seek p = .ok (s.last + 1 - s.start, { s with pos := s.last + 1 }) ∧
    (∀ s' : InputSlice, s'.pos = s'.endPos → s'.read buflen = (0, s')) := by
  have hend : s.endPos = s.last + 1 := by
    unfold InputSlice.endPos
    exact Nat.mod_eq_of_lt hov
  constructor
  · unfold InputSlice.seek
    rw [ht]
    have hcond : ¬ (s.start ≤ t ∧ t ≤ s.last) := fun hc => absurd hc.2 (by omega)
    simp only [if_neg hcond, hend, wsub64, if_pos (show s.start ≤ s.last + 1 by omega)]
  · intro s' h
    unfold InputSlice.read
    rw [if_pos (by simpa [InputSlice.position_at_end] using h)]

/-- Claim C4, witness: seeking to relative 10 on the window `[0, 5)`
clamps to relative 5, and the read-at-end clause applied at a concrete
slice positioned at its end. -/
theorem seek_past_end_clamps_witness :
    InputSlice.seek ⟨List.range 6, 0, 0, 4⟩ (.fromStart 10) =
      .ok (4 + 1 - 0, ⟨List.range 6, 4 + 1, 0, 4⟩) ∧
    InputSlice.read ⟨List.range 6, 5, 0, 4⟩ 3 = (0, ⟨List.range 6, 5, 0, 4⟩) := by
  have h := seek_past_end_clamps ⟨List.range 6, 0, 0, 4⟩ (.fromStart 10) 10 3
    (by decide) (by norm_num) rfl (by decide)
  exact ⟨h.1, h.2 ⟨List.range 6, 5, 0, 4⟩ rfl⟩

/-- Claim C7: `parse_peek` returns exactly what the wrapped `parse`
returns (value or error), and leaves the stream position at its value
before the call, in both the success and the failure case (on a
cursor, the position query and the restoring seek always succeed). -/
theorem parse_peek_preserves_result_and_position {R : Type}
    (p : Cursor → Except ParseError R × Cursor) (c : Cursor) :
    (parse_peek p c).1 = (p c).1 ∧ (parse_peek p c).2.pos = c.pos :=
  ⟨rfl, rfl⟩

lemma tag_success_aux (expected : List Nat) :
    ∀ c : Cursor, c.pos + expected.length ≤ c.data.length →
    (∀ j, j < expected.length → expected.getD j 0 = c.data.getD (c.pos + j) 0) →
    tag expected c = (.ok (), { c with pos := c.pos + expected.length }) := by
  induction expected with
  | nil =>
    intro c _ _
    simp [tag]
  | cons x rest ih =>
    intro c h1 h2
    have hpos : c.pos < c.data.length := by
      simp only [List.length_cons] at h1
      omega
    have hx : x = c.data.getD c.pos 0 := by simpa using h2 0 (by simp)
    simp only [tag, single_ok c hpos]
    rw [if_neg (by simp [hx])]
    rw [ih { c with pos := c.pos + 1 }
      (by simp only [List.length_cons] at h1 ⊢; omega)
      (by
        intro j hj
        have := h2 (j + 1) (by simpa using Nat.succ_lt_succ hj)
        simpa [Nat.add_assoc, Nat.add_comm 1 j] using this)]
    have : c.pos + 1 + rest.length = c.pos + (rest.length + 1) := by omega
    simp [this]

lemma tag_mismatch_aux (expected : List Nat) :
    ∀ (i : Nat) (c : Cursor), i < expected.length → c.pos + i < c.data.length →
    (∀ j, j < i → expected.getD j 0 = c.data.getD (c.pos + j) 0) →
    expected.getD i 0 ≠ c.data.getD (c.pos + i) 0 →
    tag expected c = (.error .invalidByte, { c with pos := c.pos + i + 1 }) := by
  induction expected with
  | nil =>
    intro i c hi
    simp at hi
  | cons x rest ih =>
    intro i c hi hav hpre hmis
    have hpos : c.pos < c.data.length := by omega
    simp only [tag, single_ok c hpos]
    cases i with
    | zero =>
      have hx : x ≠ c.data.getD c.pos 0 := by simpa using hmis
      rw [if_pos hx]
    | succ j =>
      have hx : x = c.data.getD c.pos 0 := by simpa using hpre 0 (Nat.succ_pos j)
      rw [if_neg (by simp [hx])]
      rw [ih j { c with pos := c.pos + 1 }
        (by simpa using hi)
        (by simp only; omega)
        (by
          intro j' hj'
          have := hpre (j' + 1) (by omega)
          simpa [Nat.add_assoc, Nat.add_comm 1 j'] using this)
        (by
          have h' := hmis
          simp only [List.getD_cons_succ] at h'
          simpa [Nat.add_assoc, Nat.add_comm 1 j] using h')]
      have : c.pos + 1 + j + 1 = c.pos + (j + 1) + 1 := by omega
      simp [this]

/-- Claim C6, counterexample: `tag` over an expected sequence of length
2 whose first byte already mismatches consumes only 1 byte (position
goes from 8 to 9, not to 10) before returning the invalid-byte error —
it does not read the full expected length. -/
theorem tag_error_before_full_length :
    tag [32, 82] ⟨List.range 20, 8⟩ = (.error .invalidByte, ⟨List.range 20, 9⟩) ∧
    (9 : Nat) ≠ 8 + 2 :=
  ⟨rfl, by decide⟩

/-- Claim C6 as amended: `tag` consumes each byte just before comparing
it, so on the first mismatch at index `i` (with that byte available) it
has consumed exactly `i + 1` bytes when it returns the invalid-byte
error, and only a fully matching tag consumes the whole expected
length. -/
theorem tag_consumes_through_first_mismatch :
    (∀ (expected : List Nat) (i : Nat) (c : Cursor),
      i < expected.length → c.pos + i < c.data.length →
      (∀ j, j < i → expected.getD j 0 = c.data.getD (c.pos + j) 0) →
      expected.getD i 0 ≠ c.data.getD (c.pos + i) 0 →
      tag expected c = (.error .invalidByte, { c with pos := c.pos + i + 1 })) ∧
    (∀ (expected : List Nat) (c : Cursor),
      c.pos + expected.length ≤ c.data.length →
      (∀ j, j < expected.length → expected.getD j 0 = c.data.getD (c.pos + j) 0) →
      tag expected c = (.ok (), { c with pos := c.pos + expected.length })) :=
  ⟨fun expected i c => tag_mismatch_aux expected i c,
   fun expected c => tag_success_aux expected c⟩

/-- Claim C6, witness: the amended statement applied at a concrete
stream — a mismatch at index 1 consumes 2 bytes, and a full match of a
2-byte tag consumes 2 bytes. -/
theorem tag_consumes_through_first_mismatch_witness :
    tag [5, 9] ⟨[5, 6, 7], 0⟩ = (.error .invalidByte, ⟨[5, 6, 7], 2⟩) ∧
    tag [5, 6] ⟨[5, 6, 7], 0⟩ = (.ok (), ⟨[5, 6, 7], 2⟩) :=
  ⟨tag_consumes_through_first_mismatch.1 [5, 9] 1 ⟨[5, 6, 7], 0⟩ (by decide) (by decide)
      (by decide) (by decide),
   tag_consumes_through_first_mismatch.2 [5, 6] ⟨[5, 6, 7], 0⟩ (by decide) (by decide)⟩

lemma manyAux_ok_of_step {R : Type} (step : Cursor → Except ParseError R × Cursor)
    (k : Nat) (D : List Nat) (hk : 0 < k)
    (hok : ∀ s : Cursor, s.data = D → s.pos + k ≤ D.length →
      ∃ r, step s = (.ok r, { s with pos := s.pos + k })) :
    ∀ (n : Nat) (c : Cursor) (acc : List R) (fuel : Nat), c.data = D →
      c.pos + n * k = D.length → n + 1 ≤ fuel →
      ∃ l fin, manyAux step D.length fuel c acc = some (.ok l, fin) ∧
        l.length = acc.length + n ∧ fin.pos = D.length := by
  intro n
  induction n with
  | zero =>
    intro c acc fuel hd hpos hfuel
    match fuel, hfuel with
    | fuel + 1, _ =>
      refine ⟨acc.reverse, c, ?_, by simp, by omega⟩
      simp only [manyAux, stream_position]
      rw [if_pos (by omega)]
  | succ n ih =>
    intro c acc fuel hd hpos hfuel
    match fuel, hfuel with
    | fuel + 1, _ =>
      have hge : k ≤ (n + 1) * k := Nat.le_mul_of_pos_left k n.succ_pos
      obtain ⟨r, hr⟩ := hok c hd (by omega)
      rw [Nat.succ_mul] at hpos
      obtain ⟨l, fin, h1, h2, h3⟩ := ih { c with pos := c.pos + k } (r :: acc) fuel
        (by simpa using hd) (by simp only; omega) (by omega)
      refine ⟨l, fin, ?_, by simp at h2; omega, h3⟩
      simp only [manyAux, stream_position]
      rw [if_neg (by omega), hr]
      exact h1

lemma manyAux_err_of_step {R : Type} (step : Cursor → Except ParseError R × Cursor)
    (k : Nat) (D : List Nat) (_hk : 0 < k)
    (hok : ∀ s : Cursor, s.data = D → s.pos + k ≤ D.length →
      ∃ r, step s = (.ok r, { s with pos := s.pos + k }))
    (herr : ∀ s : Cursor, s.data = D → D.length < s.pos + k →
      ∃ e s', step s = (.error e, s')) :
    ∀ (n r : Nat) (c : Cursor) (acc : List R) (fuel : Nat), c.data = D →
      c.pos + n * k + r = D.length → 0 < r → r < k → n + 1 ≤ fuel →
      ∃ e s', manyAux step D.length fuel c acc = some (.error e, s') := by
  intro n
  induction n with
  | zero =>
    intro r c acc fuel hd hpos hr hrk hfuel
    match fuel, hfuel with
    | fuel + 1, _ =>
      obtain ⟨e, s', hs⟩ := herr c hd (by omega)
      refine ⟨e, s', ?_⟩
      simp only [manyAux, stream_position]
      rw [if_neg (by omega), hs]
  | succ n ih =>
    intro r c acc fuel hd hpos hr hrk hfuel
    match fuel, hfuel with
    | fuel + 1, _ =>
      have hge : k ≤ (n + 1) * k := Nat.le_mul_of_pos_left k n.succ_pos
      obtain ⟨v, hv⟩ := hok c hd (by omega)
      rw [Nat.succ_mul] at hpos
      obtain ⟨e, s', hs⟩ := ih r { c with pos := c.pos + k } (v :: acc) fuel
        (by simpa using hd) (by simp only; omega) hr hrk (by omega)
      refine ⟨e, s', ?_⟩
      simp only [manyAux, stream_position]
      rw [if_neg (by omega), hv]
      exact hs

/-- Claim C8: over a stream of length `L` starting at position 0, with
a step that succeeds consuming exactly `k > 0` bytes whenever `k` bytes
remain and fails whenever fewer than `k` bytes remain, `many` returns
`Ok` with exactly `L / k` elements and final position `L` when `k`
divides `L`, and returns an error (rather than a truncated or over-read
sequence) when `k` does not divide `L`. -/
theorem many_exhausts_region {R : Type} (step : Cursor → Except ParseError R × Cursor)
    (k : Nat) (c : Cursor) (h0 : c.pos = 0) (hk : 0 < k)
    (hok : ∀ s : Cursor, s.data = c.data → s.pos + k ≤ c.data.length →
      ∃ r, step s = (.ok r, { s with pos := s.pos + k }))
    (herr : ∀ s : Cursor, s.data = c.data → c.data.length < s.pos + k →
      ∃ e s', step s = (.error e, s')) :
    (k ∣ c.data.length →
      ∃ l fin, many step c = some (.ok l, fin) ∧
        l.length = c.data.length / k ∧ fin.pos = c.data.length) ∧
    (¬ k ∣ c.data.length → ∃ e s', many step c = some (.error e, s')) := by
  have hmany : many step c =
      manyAux step c.data.length (c.data.length + 1 - c.pos) c [] := by
    unfold many
    rw [stream_len_eq]
  constructor
  · intro hdvd
    obtain ⟨n, hn⟩ := hdvd
    obtain ⟨l, fin, h1, h2, h3⟩ := manyAux_ok_of_step step k c.data hk hok n c []
      (c.data.length + 1 - c.pos) rfl (by rw [h0, Nat.zero_add, hn, Nat.mul_comm])
      (by
        have : n ≤ k * n := Nat.le_mul_of_pos_left n hk
        omega)
    refine ⟨l, fin, ?_, ?_, h3⟩
    · rw [hmany]
      exact h1
    · rw [hn, Nat.mul_div_cancel_left n hk]
      simpa using h2
  · intro hnd
    have hmod : c.data.length % k ≠ 0 := fun h => hnd (Nat.dvd_of_mod_eq_zero h)
    have hdm := Nat.div_add_mod c.data.length k
    obtain ⟨e, s', hs⟩ := manyAux_err_of_step step k c.data hk hok herr
      (c.data.length / k) (c.data.length % k) c [] (c.data.length + 1 - c.pos) rfl
      (by rw [h0, Nat.zero_add, Nat.mul_comm]; omega)
      (by omega) (Nat.mod_lt _ hk)
      (by
        have : c.data.length / k ≤ k * (c.data.length / k) :=
          Nat.le_mul_of_pos_left _ hk
        omega)
    refine ⟨e, s', ?_⟩
    rw [hmany]
    exact hs

/-- Claim C8, witness: both halves of the exhaust theorem applied to a
concrete 2-byte step — it divides a 4-byte stream into 2 elements, and
fails on a 5-byte stream. -/
theorem many_exhausts_region_witness :
    (∃ l fin,
      many (fun s => if s.pos + 2 ≤ s.data.length then (Except.ok 0, { s with pos := s.pos + 2 })
        else (Except.error ParseError.invalidByte, s)) ⟨[1, 2, 3, 4], 0⟩ =
        some (.ok l, fin) ∧ l.length = 2 ∧ fin.pos = 4) ∧
    (∃ e s',
      many (fun s => if s.pos + 2 ≤ s.data.length then (Except.ok 0, { s with pos := s.pos + 2 })
        else (Except.error ParseError.invalidByte, s)) ⟨[1, 2, 3, 4, 5], 0⟩ =
        some (.error e, s')) := by
  constructor
  · have h := (many_exhausts_region
      (fun s => if s.pos + 2 ≤ s.data.length then (Except.ok 0, { s with pos := s.pos + 2 })
        else (Except.error ParseError.invalidByte, s)) 2 ⟨[1, 2, 3, 4], 0⟩ rfl (by decide)
      (fun s hd hle => ⟨0, by
        dsimp only
        rw [if_pos (show s.pos + 2 ≤ s.data.length by rw [hd]; exact hle)]⟩)
      (fun s hd hgt => ⟨ParseError.invalidByte, s, by
        dsimp only
        rw [if_neg (show ¬ s.pos + 2 ≤ s.data.length by
          rw [hd]; simp only [List.length_cons, List.length_nil] at hgt ⊢; omega)]⟩)).1
      ⟨2, rfl⟩
    exact h
  · exact (many_exhausts_region
      (fun s => if s.pos + 2 ≤ s.data.length then (Except.ok 0, { s with pos := s.pos + 2 })
        else (Except.error ParseError.invalidByte, s)) 2 ⟨[1, 2, 3, 4, 5], 0⟩ rfl (by decide)
      (fun s hd hle => ⟨0, by
        dsimp only
        rw [if_pos (show s.pos + 2 ≤ s.data.length by rw [hd]; exact hle)]⟩)
      (fun s hd hgt => ⟨ParseError.invalidByte, s, by
        dsimp only
        rw [if_neg (show ¬ s.pos + 2 ≤ s.data.length by
          rw [hd]; simp only [List.length_cons, List.length_nil] at hgt ⊢; omega)]⟩)).2
      (by decide)

lemma skipAux_ok (chunk : Nat) (hc : 0 < chunk) :
    ∀ (amount fuel : Nat) (c : Cursor), c.pos + amount ≤ c.data.length →
      amount + 1 ≤ fuel →
      skipAux chunk fuel amount c = some (.ok { c with pos := c.pos + amount }) := by
  intro amount
  induction amount using Nat.strong_induction_on with
  | _ amount ih =>
    intro fuel c hav hfuel
    match fuel, hfuel with
    | fuel + 1, hfuel =>
      by_cases h0 : amount = 0
      · subst h0
        simp [skipAux]
      · have he : min chunk amount ≠ 0 := by omega
        simp only [skipAux, if_neg h0,
          readExact_ok c (min chunk amount) he (by omega)]
        rw [ih (amount - chunk) (by omega) fuel { c with pos := c.pos + min chunk amount }
          (by simp only; omega) (by omega)]
        have : c.pos + min chunk amount + (amount - chunk) = c.pos + amount := by omega
        simp [this]

lemma skipAux_err (chunk : Nat) (hc : 0 < chunk) :
    ∀ (amount fuel : Nat) (c : Cursor), 0 < amount →
      c.data.length < c.pos + amount → amount + 1 ≤ fuel →
      skipAux chunk fuel amount c = some (.error .unexpectedEof) := by
  intro amount
  induction amount using Nat.strong_induction_on with
  | _ amount ih =>
    intro fuel c h0 hav hfuel
    match fuel, hfuel with
    | fuel + 1, hfuel =>
      have he : min chunk amount ≠ 0 := by omega
      by_cases hre : c.pos + min chunk amount ≤ c.data.length
      · have hlt : chunk < amount := by omega
        simp only [skipAux, if_neg (by omega : ¬ amount = 0),
          readExact_ok c (min chunk amount) he hre]
        exact ih (amount - chunk) (by omega) fuel { c with pos := c.pos + min chunk amount }
          (by omega) (by simp only; omega) (by omega)
      · simp only [skipAux, if_neg (by omega : ¬ amount = 0),
          readExact_err c (min chunk amount) he hre]

lemma skipAux_chunk_zero :
    ∀ (fuel amount : Nat) (c : Cursor), 0 < amount → skipAux 0 fuel amount c = none := by
  intro fuel
  induction fuel with
  | zero =>
    intro amount c h
    rfl
  | succ fuel ih =>
    intro amount c h
    have hmin : min 0 amount = 0 := by omega
    simp only [skipAux, if_neg (by omega : ¬ amount = 0), hmin]
    have : c.readExact 0 = .ok c := by
      unfold Cursor.readExact
      rw [if_pos rfl]
    rw [this]
    simpa using ih amount c h

/-- Claim C10: for every `CHUNK ≥ 1`, `skip` terminates, consuming
exactly `amount` bytes (in pieces of at most `CHUNK`) and returning
`Ok`, or propagating the read error when the stream runs out first;
with `CHUNK = 0` and a positive `amount` the loop never finishes within
any fuel bound, so `CHUNK ≥ 1` is the precondition of termination. -/
theorem skip_chunked_consumption :
    (∀ (chunk amount : Nat) (c : Cursor), 0 < chunk →
      c.pos + amount ≤ c.data.length →
      skip chunk amount c = some (.ok { c with pos := c.pos + amount })) ∧
    (∀ (chunk amount : Nat) (c : Cursor), 0 < chunk → 0 < amount →
      c.data.length < c.pos + amount →
      skip chunk amount c = some (.error .unexpectedEof)) ∧
    (∀ (fuel amount : Nat) (c : Cursor), 0 < amount →
      skipAux 0 fuel amount c = none) :=
  ⟨fun chunk amount c hc h => skipAux_ok chunk hc amount (amount + 1) c h (by omega),
   fun chunk amount c hc h0 h => skipAux_err chunk hc amount (amount + 1) c h0 h (by omega),
   skipAux_chunk_zero⟩

/-- Claim C10, witness: all three clauses at concrete inputs — a
4-byte skip in 16-byte chunks, a failing skip past the end, and the
non-termination of the zero-chunk loop at fuel 50. -/
theorem skip_chunked_consumption_witness :
    skip 16 4 ⟨List.range 8, 0⟩ = some (.ok ⟨List.range 8, 0 + 4⟩) ∧
    skip 16 9 ⟨List.range 8, 0⟩ = some (.error .unexpectedEof) ∧
    skipAux 0 50 3 ⟨List.range 8, 0⟩ = none :=
  ⟨skip_chunked_consumption.1 16 4 ⟨List.range 8, 0⟩ (by decide) (by decide),
   skip_chunked_consumption.2.1 16 9 ⟨List.range 8, 0⟩ (by decide) (by decide) (by decide),
   skip_chunked_consumption.2.2 50 3 ⟨List.range 8, 0⟩ (by decide)⟩
